import Mathlib

/-!
Verification of the DirectDomainList repository (two Python scripts:
src/preprocess_list.py and src/convert_list_to_yaml.py).

The embedding is shallow: each Python function is translated to a Lean
function over Strings and Lists.  Python strings are modelled as Lean
Strings (operating on their underlying List Char); Python str.strip is
modelled on the six ASCII whitespace characters it removes, str.upper on
ASCII letters via Char.toUpper (the rule files use only ASCII), and text
file iteration as splitting on the newline character keeping terminators.
-/

/-- The six whitespace characters removed by Python str.strip(). -/
def isPySpace (c : Char) : Bool :=
  c = ' ' || c = '\t' || c = '\n' || c = '\r' || c = '\x0b' || c = '\x0c'

/-- Python str.strip() on the underlying character list. -/
def pyStripList (cs : List Char) : List Char :=
  ((cs.dropWhile isPySpace).reverse.dropWhile isPySpace).reverse

/-- Python str.strip() . -/
def pyStrip (s : String) : String := ⟨pyStripList s.data⟩

/-- Python str.upper() restricted to ASCII letters. -/
def pyUpper (s : String) : String := ⟨s.data.map Char.toUpper⟩

/-- Python s.split(",", 1) when a comma is present: the characters before
the first comma and the characters after it. -/
def splitFirstComma : List Char → List Char × List Char
  | [] => ([], [])
  | c :: rest =>
    if c = ',' then ([], rest)
    else ((splitFirstComma rest).1.cons c, (splitFirstComma rest).2)

/-- Python text-file iteration: split a file content into lines, each line
keeping its terminating newline character; a last line without a
terminator is returned as-is.  An empty content yields no lines. -/
def splitLinesAux : List Char → List Char → List String
  | [], [] => []
  | [], acc => [⟨acc.reverse⟩]
  | c :: cs, acc =>
    if c = '\n' then ⟨acc.reverse ++ [c]⟩ :: splitLinesAux cs []
    else splitLinesAux cs (c :: acc)

/-- Split a file content into its lines (terminators kept). -/
def splitLines (s : String) : List String := splitLinesAux s.data []

/-- VALID_RULE_TYPES of src/preprocess_list.py. -/
def VALID_RULE_TYPES : List String :=
  ["DOMAIN", "DOMAIN-SUFFIX", "DOMAIN-KEYWORD", "GEOIP", "IP-CIDR",
   "IP-CIDR6", "SRC-IP-CIDR", "PROCESS-NAME", "PROCESS-PATH", "RULE-SET",
   "USER-AGENT", "URL-REGEX", "AND", "OR", "NOT", "IN"]

/-- The Rule NamedTuple of src/preprocess_list.py. -/
structure Rule where
  raw : String
  type : String
  value : String
  is_comment : Bool
  is_empty : Bool
deriving DecidableEq, Repr

/-- parse_rule of src/preprocess_list.py. -/
def parse_rule (line : String) : Rule :=
  let stripped := pyStrip line
  if stripped = "" then
    ⟨line, "", "", false, true⟩
  else if stripped.data.head? = some '#' then
    ⟨line, "", "", true, false⟩
  else if stripped.data.contains ',' then
    ⟨line, pyUpper ⟨pyStripList (splitFirstComma stripped.data).1⟩,
      ⟨pyStripList (splitFirstComma stripped.data).2⟩, false, false⟩
  else
    ⟨line, "UNKNOWN", stripped, false, false⟩

/-- validate_rule of src/preprocess_list.py.  Message interpolation uses
\x27 for the single-quote character of the Python f-strings. -/
def validate_rule (rule : Rule) (valid_types : List String) : Bool × String :=
  if rule.is_comment || rule.is_empty then (true, "")
  else if rule.type = "UNKNOWN" then
    (false, "Unknown rule format: " ++ pyStrip rule.raw)
  else if !(valid_types.contains rule.type) then
    (false, "Invalid rule type \x27" ++ rule.type ++ "\x27: " ++ pyStrip rule.raw)
  else if rule.value = "" then
    (false, "Missing value for rule type \x27" ++ rule.type ++ "\x27: " ++ pyStrip rule.raw)
  else (true, "")

/-- validate_all_rules of src/preprocess_list.py: walk the rules in order,
collecting the message of every rule that fails validation. -/
def validate_all_rules : List Rule → List String
  | [] => []
  | rule :: rest =>
    if (validate_rule rule VALID_RULE_TYPES).1 then validate_all_rules rest
    else (validate_rule rule VALID_RULE_TYPES).2 :: validate_all_rules rest

/-- The composite dedup key f-string of deduplicate_rules. -/
def ruleKey (r : Rule) : String := r.type ++ "," ++ r.value

/-- The defaultdict(int) increment duplicate_counts[key] += 1, on an
insertion-ordered association list: a present key has its count bumped, an
absent key is appended with count 1. -/
def incrCount : List (String × Nat) → String → List (String × Nat)
  | [], k => [(k, 1)]
  | (k0, n) :: rest, k =>
    if k0 = k then (k0, n + 1) :: rest else (k0, n) :: incrCount rest k

/-- The loop of deduplicate_rules in src/preprocess_list.py: walk the
rules carrying the seen_in_group set (a list of keys) and the
duplicate_counts map.  A comment/empty rule resets the seen set and is
kept; a rule whose key is in the seen set is dropped and counted; any
other rule is kept and its key recorded. -/
def dedupAux (seen : List String) (counts : List (String × Nat)) :
    List Rule → List Rule × List (String × Nat)
  | [] => ([], counts)
  | r :: rest =>
    if r.is_comment || r.is_empty then
      ((dedupAux [] counts rest).1.cons r, (dedupAux [] counts rest).2)
    else if ruleKey r ∈ seen then
      dedupAux seen (incrCount counts (ruleKey r)) rest
    else
      ((dedupAux (ruleKey r :: seen) counts rest).1.cons r,
       (dedupAux (ruleKey r :: seen) counts rest).2)

/-- deduplicate_rules of src/preprocess_list.py. -/
def deduplicate_rules (rules : List Rule) : List Rule × List (String × Nat) :=
  dedupAux [] [] rules

/-- The rule list reaching the write step of process_file: every line of
the input content parsed, then deduplicated when requested. -/
def pipelineRules (content : String) (dedup : Bool) : List Rule :=
  if dedup then (deduplicate_rules ((splitLines content).map parse_rule)).1
  else (splitLines content).map parse_rule

/-- The observable core of process_file in src/preprocess_list.py on a
loaded file content: none models a False return with no output written
(the validation-failure early return); some out models a True return with
out the exact content written (each retained rule.raw, verbatim, in
order). -/
def process_file (content : String) (dedup validateOpt : Bool) : Option String :=
  if validateOpt && !(validate_all_rules (pipelineRules content dedup)).isEmpty then
    none
  else
    some (String.join ((pipelineRules content dedup).map Rule.raw))

/-- The per-line transform of the loop in convert_list_to_yaml
(src/convert_list_to_yaml.py): blank lines map to blank lines, comments to
an indented, space-normalized comment, anything else to an indented
sequence entry of the stripped content. -/
def convertLine (line : String) : String :=
  let stripped := pyStrip line
  if stripped = "" then ""
  else if stripped.data.head? = some '#' then
    "  # " ++ ⟨pyStripList (stripped.data.dropWhile (fun c => c = '#'))⟩
  else "  - " ++ stripped

/-- The loop of convert_list_to_yaml: one output line per input line. -/
def convertAux : List String → List String
  | [] => []
  | l :: ls => convertLine l :: convertAux ls

/-- Python "\n".join(lines) (the yaml_lines list is never empty: it starts
with the payload header). -/
def joinNL : List String → String
  | [] => ""
  | [s] => s
  | s :: rest => s ++ "\n" ++ joinNL rest

/-- convert_list_to_yaml of src/convert_list_to_yaml.py: the content
written to the output file for a given input file content. -/
def convert_list_to_yaml (content : String) : String :=
  joinNL ("payload:" :: convertAux (splitLines content)) ++ "\n"

/-- A line whose parse takes the TYPE,value branch of parse_rule: after
stripping it is non-empty, not a comment, and contains a comma. -/
def typedLine (line : String) : Bool :=
  (pyStrip line != "") && ((pyStrip line).data.head? != some '#')
    && (pyStrip line).data.contains ','

/-- A line whose parse takes the unknown-format branch of parse_rule:
after stripping it is non-empty, not a comment, and has no comma. -/
def malformedLine (line : String) : Bool :=
  (pyStrip line != "") && ((pyStrip line).data.head? != some '#')
    && !((pyStrip line).data.contains ',')

/-- The stripped type token before the first comma of a typed line. -/
def typeToken (line : String) : String :=
  ⟨pyStripList (splitFirstComma (pyStrip line).data).1⟩

/-- The stripped value after the first comma of a typed line. -/
def valueToken (line : String) : String :=
  ⟨pyStripList (splitFirstComma (pyStrip line).data).2⟩

/-- No dedup key repeats inside any comment/empty-delimited group,
relative to the keys already seen in the current group. -/
def noDupAux (seen : List String) : List Rule → Bool
  | [] => true
  | r :: rest =>
    if r.is_comment || r.is_empty then noDupAux [] rest
    else if ruleKey r ∈ seen then false
    else noDupAux (ruleKey r :: seen) rest

/-! ### Helper lemmas about the embedded definitions -/

theorem parse_rule_raw (line : String) : (parse_rule line).raw = line := by
  simp only [parse_rule]
  split
  · rfl
  · split
    · rfl
    · split <;> rfl

theorem dedupAux_cons_boundary (seen : List String) (counts : List (String × Nat))
    (r : Rule) (rest : List Rule) (h : (r.is_comment || r.is_empty) = true) :
    dedupAux seen counts (r :: rest) =
      ((dedupAux [] counts rest).1.cons r, (dedupAux [] counts rest).2) := by
  simp [dedupAux, h]

theorem dedupAux_cons_dup (seen : List String) (counts : List (String × Nat))
    (r : Rule) (rest : List Rule) (h : (r.is_comment || r.is_empty) = false)
    (hk : ruleKey r ∈ seen) :
    dedupAux seen counts (r :: rest) =
      dedupAux seen (incrCount counts (ruleKey r)) rest := by
  simp [dedupAux, h, hk]

theorem dedupAux_cons_new (seen : List String) (counts : List (String × Nat))
    (r : Rule) (rest : List Rule) (h : (r.is_comment || r.is_empty) = false)
    (hk : ruleKey r ∉ seen) :
    dedupAux seen counts (r :: rest) =
      ((dedupAux (ruleKey r :: seen) counts rest).1.cons r,
       (dedupAux (ruleKey r :: seen) counts rest).2) := by
  simp [dedupAux, h, hk]

theorem dedupAux_sublist (rules : List Rule) :
    ∀ seen counts, ((dedupAux seen counts rules).1).Sublist rules := by
  induction rules with
  | nil => intro seen counts; simp [dedupAux]
  | cons r rest ih =>
    intro seen counts
    by_cases hb : (r.is_comment || r.is_empty) = true
    · rw [dedupAux_cons_boundary seen counts r rest hb]
      exact (ih [] counts).cons₂ r
    · have hb2 : (r.is_comment || r.is_empty) = false := by
        simpa using hb
      by_cases hk : ruleKey r ∈ seen
      · rw [dedupAux_cons_dup seen counts r rest hb2 hk]
        exact (ih seen (incrCount counts (ruleKey r))).cons r
      · rw [dedupAux_cons_new seen counts r rest hb2 hk]
        exact (ih (ruleKey r :: seen) counts).cons₂ r

theorem dedupAux_idem (rules : List Rule) :
    ∀ seen c c0,
      dedupAux seen c0 ((dedupAux seen c rules).1) = ((dedupAux seen c rules).1, c0) := by
  induction rules with
  | nil => intro seen c c0; simp [dedupAux]
  | cons r rest ih =>
    intro seen c c0
    by_cases hb : (r.is_comment || r.is_empty) = true
    · rw [dedupAux_cons_boundary seen c r rest hb]
      rw [dedupAux_cons_boundary seen c0 r ((dedupAux [] c rest).1) hb]
      rw [ih [] c c0]
    · have hb2 : (r.is_comment || r.is_empty) = false := by
        simpa using hb
      by_cases hk : ruleKey r ∈ seen
      · rw [dedupAux_cons_dup seen c r rest hb2 hk]
        exact ih seen (incrCount c (ruleKey r)) c0
      · rw [dedupAux_cons_new seen c r rest hb2 hk]
        rw [dedupAux_cons_new seen c0 r ((dedupAux (ruleKey r :: seen) c rest).1) hb2 hk]
        rw [ih (ruleKey r :: seen) c c0]

theorem dedupAux_noDup (rules : List Rule) :
    ∀ seen c, noDupAux seen rules = true → dedupAux seen c rules = (rules, c) := by
  induction rules with
  | nil => intro seen c _; simp [dedupAux]
  | cons r rest ih =>
    intro seen c h
    by_cases hb : (r.is_comment || r.is_empty) = true
    · rw [dedupAux_cons_boundary seen c r rest hb]
      have h2 : noDupAux [] rest = true := by
        unfold noDupAux at h
        rwa [if_pos hb] at h
      rw [ih [] c h2]
    · have hb2 : (r.is_comment || r.is_empty) = false := by
        simpa using hb
      by_cases hk : ruleKey r ∈ seen
      · exfalso
        unfold noDupAux at h
        rw [if_neg (by simp [hb2]), if_pos hk] at h
        exact Bool.false_ne_true h
      · rw [dedupAux_cons_new seen c r rest hb2 hk]
        have h2 : noDupAux (ruleKey r :: seen) rest = true := by
          unfold noDupAux at h
          rwa [if_neg (by simp [hb2]), if_neg hk] at h
        rw [ih (ruleKey r :: seen) c h2]

theorem dedupAux_ne_nil (rules : List Rule) (c : List (String × Nat))
    (h : rules ≠ []) : (dedupAux [] c rules).1 ≠ [] := by
  cases rules with
  | nil => cases h rfl
  | cons r rest =>
    by_cases hb : (r.is_comment || r.is_empty) = true
    · rw [dedupAux_cons_boundary [] c r rest hb]
      simp
    · have hb2 : (r.is_comment || r.is_empty) = false := by
        simpa using hb
      rw [dedupAux_cons_new [] c r rest hb2 (by simp)]
      simp

theorem dropWhile_head_not (p : Char → Bool) (l : List Char) :
    ∀ c, (l.dropWhile p).head? = some c → p c = false := by
  induction l with
  | nil => intro c h; simp [List.dropWhile] at h
  | cons a t ih =>
    intro c h
    rw [List.dropWhile_cons] at h
    by_cases hp : p a = true
    · rw [if_pos hp] at h
      exact ih c h
    · rw [if_neg hp] at h
      have ha : a = c := by simpa using h
      subst ha
      simpa using hp

theorem dropWhile_eq_self_of_head (p : Char → Bool) (l : List Char)
    (h : ∀ c, l.head? = some c → p c = false) : l.dropWhile p = l := by
  cases l with
  | nil => rfl
  | cons a t =>
    rw [List.dropWhile_cons, if_neg]
    simp [h a rfl]

theorem dropWhile_suffix_ex (p : Char → Bool) (l : List Char) :
    ∃ t, t ++ l.dropWhile p = l := by
  induction l with
  | nil => exact ⟨[], rfl⟩
  | cons a t ih =>
    by_cases hp : p a = true
    · obtain ⟨u, hu⟩ := ih
      refine ⟨a :: u, ?_⟩
      rw [List.dropWhile_cons, if_pos hp]
      simp [hu]
    · refine ⟨[], ?_⟩
      rw [List.dropWhile_cons, if_neg hp]
      rfl

theorem pyStripList_head (l : List Char) :
    ∀ c, (pyStripList l).head? = some c → isPySpace c = false := by
  intro c h
  unfold pyStripList at h
  rw [List.head?_reverse] at h
  by_cases hnil : ((l.dropWhile isPySpace).reverse).dropWhile isPySpace = []
  · rw [hnil] at h
    simp at h
  · obtain ⟨t, ht⟩ := dropWhile_suffix_ex isPySpace ((l.dropWhile isPySpace).reverse)
    have h2 : ((l.dropWhile isPySpace).reverse).getLast? = some c := by
      rw [← ht, List.getLast?_append_of_ne_nil t hnil]
      exact h
    rw [List.getLast?_reverse] at h2
    exact dropWhile_head_not isPySpace l c h2

theorem pyStripList_getLast (l : List Char) :
    ∀ c, (pyStripList l).getLast? = some c → isPySpace c = false := by
  intro c h
  unfold pyStripList at h
  rw [List.getLast?_reverse] at h
  exact dropWhile_head_not isPySpace (l.dropWhile isPySpace).reverse c h

theorem pyStripList_of_clean (l : List Char)
    (h1 : ∀ c, l.head? = some c → isPySpace c = false)
    (h2 : ∀ c, l.getLast? = some c → isPySpace c = false) :
    pyStripList l = l := by
  unfold pyStripList
  rw [dropWhile_eq_self_of_head isPySpace l h1]
  rw [dropWhile_eq_self_of_head isPySpace l.reverse (by
    intro c hc
    rw [List.head?_reverse] at hc
    exact h2 c hc)]
  exact List.reverse_reverse l

theorem pyStripList_idem (l : List Char) :
    pyStripList (pyStripList l) = pyStripList l :=
  pyStripList_of_clean (pyStripList l) (pyStripList_head l) (pyStripList_getLast l)

theorem pyStrip_idem (s : String) : pyStrip (pyStrip s) = pyStrip s := by
  unfold pyStrip
  exact congrArg String.mk (pyStripList_idem s.data)

theorem parse_rule_typed (line : String) (h : typedLine line = true) :
    parse_rule line = ⟨line, pyUpper (typeToken line), valueToken line, false, false⟩ := by
  unfold typedLine at h
  simp only [Bool.and_eq_true, bne_iff_ne, ne_eq] at h
  obtain ⟨⟨h1, h2⟩, h3⟩ := h
  simp only [parse_rule, typeToken, valueToken]
  rw [if_neg h1, if_neg h2, if_pos h3]

theorem parse_rule_malformed (line : String) (h : malformedLine line = true) :
    parse_rule line = ⟨line, "UNKNOWN", pyStrip line, false, false⟩ := by
  unfold malformedLine at h
  simp only [Bool.and_eq_true, bne_iff_ne, ne_eq, Bool.not_eq_eq_eq_not, Bool.not_true] at h
  obtain ⟨⟨h1, h2⟩, h3⟩ := h
  simp only [parse_rule]
  rw [if_neg h1, if_neg h2, if_neg (by rw [h3]; exact Bool.false_ne_true)]

theorem valueToken_stripped (line : String) :
    pyStrip (valueToken line) = valueToken line := by
  unfold valueToken pyStrip
  exact congrArg String.mk (pyStripList_idem _)

theorem splitLinesAux_end (cs : List Char) :
    ∀ acc, cs.getLast? = some '\n' →
      ∀ s ∈ splitLinesAux cs acc, s.data.getLast? = some '\n' := by
  induction cs with
  | nil => intro acc h; simp at h
  | cons c cs ih =>
    intro acc h s hs
    unfold splitLinesAux at hs
    by_cases hc : c = '\n'
    · rw [if_pos hc] at hs
      rcases List.mem_cons.mp hs with h1 | h2
      · subst h1
        show (acc.reverse ++ [c]).getLast? = some '\n'
        rw [List.getLast?_concat, hc]
      · cases cs with
        | nil => simp [splitLinesAux] at h2
        | cons d ds =>
          exact ih [] (by rwa [List.getLast?_cons_cons] at h) s h2
    · rw [if_neg hc] at hs
      cases cs with
      | nil =>
        rw [List.getLast?_singleton] at h
        exact absurd (Option.some.inj h) hc
      | cons d ds =>
        exact ih (c :: acc) (by rwa [List.getLast?_cons_cons] at h) s hs

theorem splitLinesAux_ne_nil (cs : List Char) :
    ∀ acc, cs ≠ [] ∨ acc ≠ [] → splitLinesAux cs acc ≠ [] := by
  induction cs with
  | nil =>
    intro acc h
    rcases h with h | h
    · cases h rfl
    · cases acc with
      | nil => cases h rfl
      | cons a t => simp [splitLinesAux]
  | cons c cs ih =>
    intro acc _
    unfold splitLinesAux
    by_cases hc : c = '\n'
    · rw [if_pos hc]
      simp
    · rw [if_neg hc]
      exact ih (c :: acc) (Or.inr (by simp))

theorem string_foldl_append_data (ss : List String) :
    ∀ a : String, (ss.foldl (fun r s => r ++ s) a).data =
      a.data ++ ((ss.map String.data).flatten) := by
  induction ss with
  | nil => intro a; simp
  | cons s t ih =>
    intro a
    simp only [List.foldl_cons, List.map_cons, List.flatten_cons]
    rw [ih (a ++ s), String.data_append]
    simp [List.append_assoc]

theorem string_join_data (ss : List String) :
    (String.join ss).data = (ss.map String.data).flatten := by
  have h := string_foldl_append_data ss ""
  simpa [String.join] using h

theorem flatten_getLast_newline (ls : List (List Char)) :
    ls ≠ [] → (∀ l ∈ ls, l.getLast? = some '\n') →
      ls.flatten ≠ [] ∧ ls.flatten.getLast? = some '\n' := by
  induction ls with
  | nil => intro h; cases h rfl
  | cons l t ih =>
    intro _ h
    cases t with
    | nil =>
      have hl : l.getLast? = some '\n' := h l (List.mem_cons_self l [])
      have hlne : l ≠ [] := by
        intro h0
        rw [h0] at hl
        simp at hl
      constructor
      · simpa using hlne
      · simpa using hl
    | cons l2 t2 =>
      have hrec := ih (by simp) (fun x hx => h x (List.mem_cons_of_mem l hx))
      rw [List.flatten_cons]
      constructor
      · intro h0
        exact hrec.1 (List.append_eq_nil.mp h0).2
      · rw [List.getLast?_append_of_ne_nil l hrec.1]
        exact hrec.2

/-- C1: deduplication walks the parsed sequence in order with a seen set
of type,value keys.  A comment or empty rule clears the set and is itself
retained; a rule whose key is in the current set is dropped and its
removal count incremented by one; any other rule is added to the set and
retained; the retained lines form a subsequence of the input, keeping
their original relative order.  On the groups
#A / DOMAIN,x.com / DOMAIN,x.com / #B / DOMAIN,x.com exactly the second
occurrence inside group A is removed and the occurrence in group B is
retained. -/
theorem dedup_walk :
    (∀ seen counts (r : Rule) rest, (r.is_comment || r.is_empty) = true →
       dedupAux seen counts (r :: rest) =
         ((dedupAux [] counts rest).1.cons r, (dedupAux [] counts rest).2)) ∧
    (∀ seen counts (r : Rule) rest, (r.is_comment || r.is_empty) = false →
       ruleKey r ∈ seen →
       dedupAux seen counts (r :: rest) =
         dedupAux seen (incrCount counts (ruleKey r)) rest) ∧
    (∀ seen counts (r : Rule) rest, (r.is_comment || r.is_empty) = false →
       ruleKey r ∉ seen →
       dedupAux seen counts (r :: rest) =
         ((dedupAux (ruleKey r :: seen) counts rest).1.cons r,
          (dedupAux (ruleKey r :: seen) counts rest).2)) ∧
    (∀ rules, ((deduplicate_rules rules).1).Sublist rules) ∧
    deduplicate_rules [parse_rule "#A\n", parse_rule "DOMAIN,x.com\n",
        parse_rule "DOMAIN,x.com\n", parse_rule "#B\n", parse_rule "DOMAIN,x.com\n"] =
      ([parse_rule "#A\n", parse_rule "DOMAIN,x.com\n", parse_rule "#B\n",
        parse_rule "DOMAIN,x.com\n"], [("DOMAIN,x.com", 1)]) := by
  refine ⟨dedupAux_cons_boundary, dedupAux_cons_dup, dedupAux_cons_new,
    fun rules => dedupAux_sublist rules [] [], by decide⟩

/-- Closed instances of the three hypothetical steps of dedup_walk. -/
theorem dedup_walk_witness :
    dedupAux ["DOMAIN,x.com"] [] [parse_rule "# end\n"] = ([parse_rule "# end\n"], []) ∧
    dedupAux ["DOMAIN,x.com"] [] [parse_rule "DOMAIN,x.com\n"] = ([], [("DOMAIN,x.com", 1)]) ∧
    dedupAux [] [] [parse_rule "DOMAIN,x.com\n"] = ([parse_rule "DOMAIN,x.com\n"], []) := by
  refine ⟨?_, ?_, ?_⟩
  · have h := dedup_walk.1 ["DOMAIN,x.com"] [] (parse_rule "# end\n") [] (by decide)
    rw [h]
    decide
  · have h := dedup_walk.2.1 ["DOMAIN,x.com"] [] (parse_rule "DOMAIN,x.com\n") [] (by decide)
      (by decide)
    rw [h]
    decide
  · have h := dedup_walk.2.2.1 [] [] (parse_rule "DOMAIN,x.com\n") [] (by decide) (by decide)
    rw [h]
    decide

/-- C5: deduplication is idempotent: running deduplicate_rules on its own
output returns the same sequence and an empty removal map. -/
theorem dedup_idempotent (rules : List Rule) :
    deduplicate_rules ((deduplicate_rules rules).1) = ((deduplicate_rules rules).1, []) := by
  unfold deduplicate_rules
  exact dedupAux_idem rules [] [] []

/-- C6: parse_rule keeps the raw line verbatim, and on a rule sequence in
which no dedup key occurs twice within any single group, deduplicate_rules
returns the sequence unchanged with an empty removal map, so the rewritten
file (concatenation of the retained raw texts) is byte-identical to the
concatenation of the input raw texts. -/
theorem dedup_roundtrip :
    (∀ line, (parse_rule line).raw = line) ∧
    (∀ rules, noDupAux [] rules = true →
       deduplicate_rules rules = (rules, []) ∧
       String.join (((deduplicate_rules rules).1).map Rule.raw) =
         String.join (rules.map Rule.raw)) := by
  refine ⟨parse_rule_raw, fun rules h => ?_⟩
  have h2 : deduplicate_rules rules = (rules, []) := dedupAux_noDup rules [] [] h
  exact ⟨h2, by rw [h2]⟩

/-- Closed instance of dedup_roundtrip on a duplicate-free file. -/
theorem dedup_roundtrip_witness :
    deduplicate_rules [parse_rule "#A\n", parse_rule "DOMAIN,a.com\n",
        parse_rule "DOMAIN-SUFFIX,b.com\n"] =
      ([parse_rule "#A\n", parse_rule "DOMAIN,a.com\n",
        parse_rule "DOMAIN-SUFFIX,b.com\n"], []) :=
  (dedup_roundtrip.2 _ (by decide)).1

/-- C2: fail-closed validation in process_file: with validation enabled, a
non-empty validation error list yields failure with no output content;
the output content (every retained raw, verbatim, in order) is produced
exactly when all rules validate ok or validation was not requested. -/
theorem process_fail_closed (content : String) (dedup : Bool) :
    (validate_all_rules (pipelineRules content dedup) ≠ [] →
       process_file content dedup true = none) ∧
    (validate_all_rules (pipelineRules content dedup) = [] →
       process_file content dedup true =
         some (String.join ((pipelineRules content dedup).map Rule.raw))) ∧
    process_file content dedup false =
      some (String.join ((pipelineRules content dedup).map Rule.raw)) := by
  refine ⟨fun h => ?_, fun h => ?_, ?_⟩
  · unfold process_file
    have hE : (validate_all_rules (pipelineRules content dedup)).isEmpty = false := by
      cases hl : validate_all_rules (pipelineRules content dedup) with
      | nil => exact absurd hl h
      | cons a t => rfl
    rw [hE]
    simp
  · unfold process_file
    rw [h]
    simp
  · unfold process_file
    simp

/-- Closed instances of process_fail_closed: an invalid file is rejected
with no output, a valid file is written back verbatim. -/
theorem process_fail_closed_witness :
    process_file "FOO,bar\n" false true = none ∧
    process_file "DOMAIN,a.com\n" false true = some "DOMAIN,a.com\n" := by
  constructor
  · exact (process_fail_closed "FOO,bar\n" false).1 (by decide)
  · exact ((process_fail_closed "DOMAIN,a.com\n" false).2.1 (by decide)).trans (by decide)

/-- C3: validate_rule accepts every comment/empty rule with an empty
message, and on a parsed typed line fails exactly when the uppercased type
token is not in VALID_RULE_TYPES or the trimmed value is empty; it rejects
FOO,bar (unknown type) and DOMAIN, (empty value) and accepts
DOMAIN-SUFFIX,example.com. -/
theorem validate_rule_spec :
    (∀ r : Rule, (r.is_comment || r.is_empty) = true →
       validate_rule r VALID_RULE_TYPES = (true, "")) ∧
    (∀ line, typedLine line = true →
       ((validate_rule (parse_rule line) VALID_RULE_TYPES).1 = false ↔
         ((parse_rule line).type ∉ VALID_RULE_TYPES ∨
          pyStrip (parse_rule line).value = ""))) ∧
    (validate_rule (parse_rule "FOO,bar") VALID_RULE_TYPES).1 = false ∧
    (validate_rule (parse_rule "DOMAIN,") VALID_RULE_TYPES).1 = false ∧
    validate_rule (parse_rule "DOMAIN-SUFFIX,example.com") VALID_RULE_TYPES = (true, "") := by
  refine ⟨fun r h => ?_, fun line h => ?_, by decide, by decide, by decide⟩
  · unfold validate_rule
    rw [if_pos h]
  · rw [parse_rule_typed line h]
    dsimp only
    rw [valueToken_stripped line]
    unfold validate_rule
    dsimp only
    rw [if_neg (by simp)]
    by_cases hT : pyUpper (typeToken line) = "UNKNOWN"
    · rw [if_pos hT]
      refine iff_of_true rfl (Or.inl ?_)
      rw [hT]
      decide
    · rw [if_neg hT]
      by_cases hC : VALID_RULE_TYPES.contains (pyUpper (typeToken line)) = true
      · have hmem : pyUpper (typeToken line) ∈ VALID_RULE_TYPES := List.elem_iff.mp hC
        rw [if_neg (by rw [hC]; simp)]
        by_cases hV : valueToken line = ""
        · rw [if_pos hV]
          exact iff_of_true rfl (Or.inr hV)
        · rw [if_neg hV]
          constructor
          · intro hfalse
            exact absurd hfalse (by simp)
          · intro hor
            rcases hor with h1 | h2
            · exact absurd hmem h1
            · exact absurd h2 hV
      · have hCf : VALID_RULE_TYPES.contains (pyUpper (typeToken line)) = false := by
          cases hcv : VALID_RULE_TYPES.contains (pyUpper (typeToken line)) with
          | false => rfl
          | true => exact absurd hcv hC
        have hmem : pyUpper (typeToken line) ∉ VALID_RULE_TYPES := by
          intro hm
          exact hC (List.elem_iff.mpr hm)
        rw [if_pos (by rw [hCf]; rfl)]
        exact iff_of_true rfl (Or.inl hmem)

/-- Closed instances of validate_rule_spec: the typed-line criterion at
DOMAIN,x and the comment acceptance at a concrete comment rule. -/
theorem validate_rule_spec_witness :
    ((validate_rule (parse_rule "DOMAIN,x\n") VALID_RULE_TYPES).1 = false ↔
      ((parse_rule "DOMAIN,x\n").type ∉ VALID_RULE_TYPES ∨
       pyStrip (parse_rule "DOMAIN,x\n").value = "")) ∧
    validate_rule ⟨"# c\n", "", "", true, false⟩ VALID_RULE_TYPES = (true, "") := by
  constructor
  · exact validate_rule_spec.2.1 "DOMAIN,x\n" (by decide)
  · exact validate_rule_spec.1 ⟨"# c\n", "", "", true, false⟩ (by decide)

/-- C4 counterexample: the validation error for the invalid line FOO,bar
is the identical string whether the line sits at position 1 or at position
2 of the sequence, and that string contains no line number, refuting that
each reported validation error carries the 1-based line number of the
offending line. -/
theorem validate_errors_position_independent :
    validate_all_rules [parse_rule "DOMAIN,ok\n", parse_rule "FOO,bar\n"] =
      validate_all_rules [parse_rule "FOO,bar\n"] ∧
    validate_all_rules [parse_rule "FOO,bar\n"] =
      ["Invalid rule type \x27FOO\x27: FOO,bar"] := by
  decide

/-- C4 amended: validating the full sequence produces the per-rule failure
messages concatenated in original line order (a filterMap over the rules),
and each failure message carries the stripped raw content of the offending
line, but no line number. -/
theorem validate_all_rules_spec :
    (∀ rules, validate_all_rules rules =
       rules.filterMap (fun r =>
         if (validate_rule r VALID_RULE_TYPES).1 then none
         else some (validate_rule r VALID_RULE_TYPES).2)) ∧
    (∀ r : Rule, (validate_rule r VALID_RULE_TYPES).1 = false →
       ∃ pre, (validate_rule r VALID_RULE_TYPES).2 = pre ++ pyStrip r.raw) := by
  constructor
  · intro rules
    induction rules with
    | nil => rfl
    | cons r rest ih =>
      by_cases hv : (validate_rule r VALID_RULE_TYPES).1 = true
      · simp [validate_all_rules, List.filterMap_cons, hv, ih]
      · have hv2 : (validate_rule r VALID_RULE_TYPES).1 = false := by
          cases hb : (validate_rule r VALID_RULE_TYPES).1 with
          | false => rfl
          | true => exact absurd hb hv
        simp [validate_all_rules, List.filterMap_cons, hv2, ih]
  · intro r hf
    unfold validate_rule at hf ⊢
    by_cases h1 : (r.is_comment || r.is_empty) = true
    · rw [if_pos h1] at hf
      exact absurd hf (by simp)
    · rw [if_neg h1] at hf ⊢
      by_cases h2 : r.type = "UNKNOWN"
      · rw [if_pos h2]
        exact ⟨"Unknown rule format: ", rfl⟩
      · rw [if_neg h2] at hf ⊢
        by_cases h3 : (!(VALID_RULE_TYPES.contains r.type)) = true
        · rw [if_pos h3]
          exact ⟨"Invalid rule type \x27" ++ r.type ++ "\x27: ", rfl⟩
        · rw [if_neg h3] at hf ⊢
          by_cases h4 : r.value = ""
          · rw [if_pos h4]
            exact ⟨"Missing value for rule type \x27" ++ r.type ++ "\x27: ", rfl⟩
          · rw [if_neg h4] at hf
            exact absurd hf (by simp)

/-- Closed instances of validate_all_rules_spec at the line FOO,bar. -/
theorem validate_all_rules_spec_witness :
    validate_all_rules [parse_rule "FOO,bar\n"] =
      [parse_rule "FOO,bar\n"].filterMap (fun r =>
        if (validate_rule r VALID_RULE_TYPES).1 then none
        else some (validate_rule r VALID_RULE_TYPES).2) ∧
    ∃ pre, (validate_rule (parse_rule "FOO,bar\n") VALID_RULE_TYPES).2 =
      pre ++ pyStrip (parse_rule "FOO,bar\n").raw := by
  constructor
  · exact validate_all_rules_spec.1 [parse_rule "FOO,bar\n"]
  · exact validate_all_rules_spec.2 (parse_rule "FOO,bar\n") (by decide)

/-- C7 counterexample: for the input DOMAIN,a.com whose single line has no
terminating newline, process_file writes exactly DOMAIN,a.com — one line
written, non-empty output, no trailing newline — refuting that the
written output always ends with a trailing newline. -/
theorem trailing_newline_counterexample :
    process_file "DOMAIN,a.com" false false = some "DOMAIN,a.com" ∧
    "DOMAIN,a.com" ≠ "" ∧
    "DOMAIN,a.com".data.getLast? ≠ some '\n' := by
  refine ⟨by decide, by decide, by decide⟩

/-- C7 amended: the written output is the verbatim concatenation of the
retained raw lines, so whenever the input content ends with a terminating
newline, any written output is non-empty and ends with a trailing
newline; when the input's last line has no terminating newline the output
need not end with one (counterexample above). -/
theorem trailing_newline_amended (content : String) (dedup validateOpt : Bool)
    (out : String) (hnl : content.data.getLast? = some '\n')
    (hout : process_file content dedup validateOpt = some out) :
    out ≠ "" ∧ out.data.getLast? = some '\n' := by
  have hcne : content.data ≠ [] := by
    intro h0
    rw [h0] at hnl
    simp at hnl
  have hlines : ∀ s ∈ splitLines content, s.data.getLast? = some '\n' :=
    splitLinesAux_end content.data [] hnl
  have hlne : splitLines content ≠ [] :=
    splitLinesAux_ne_nil content.data [] (Or.inl hcne)
  have hmapne : (splitLines content).map parse_rule ≠ [] := by
    simp [List.map_eq_nil_iff, hlne]
  have hrules : ∀ r ∈ pipelineRules content dedup, r.raw.data.getLast? = some '\n' := by
    intro r hr
    have hr2 : r ∈ (splitLines content).map parse_rule := by
      unfold pipelineRules at hr
      cases dedup with
      | false => simpa using hr
      | true =>
        rw [if_pos rfl] at hr
        exact (dedupAux_sublist ((splitLines content).map parse_rule) [] []).subset hr
    obtain ⟨line, hline, hpar⟩ := List.mem_map.mp hr2
    rw [← hpar, parse_rule_raw]
    exact hlines line hline
  have hpne : pipelineRules content dedup ≠ [] := by
    unfold pipelineRules
    cases dedup with
    | false => simpa using hmapne
    | true =>
      rw [if_pos rfl]
      exact dedupAux_ne_nil _ [] hmapne
  have hJ : out = String.join ((pipelineRules content dedup).map Rule.raw) := by
    unfold process_file at hout
    split at hout
    · exact absurd hout (by simp)
    · exact (Option.some.inj hout).symm
  have hdata : out.data =
      (((pipelineRules content dedup).map Rule.raw).map String.data).flatten := by
    rw [hJ, string_join_data]
  have hfl := flatten_getLast_newline
    (((pipelineRules content dedup).map Rule.raw).map String.data)
    (by simp [List.map_eq_nil_iff, hpne])
    (by
      intro l hl
      obtain ⟨s, hs, hsl⟩ := List.mem_map.mp hl
      obtain ⟨r, hr, hrs⟩ := List.mem_map.mp hs
      rw [← hsl, ← hrs]
      exact hrules r hr)
  constructor
  · intro h0
    rw [h0] at hdata
    exact hfl.1 hdata.symm
  · rw [hdata]
    exact hfl.2

/-- Closed instance of trailing_newline_amended on a newline-terminated
input. -/
theorem trailing_newline_amended_witness :
    ("DOMAIN,a.com\n" ≠ "") ∧ "DOMAIN,a.com\n".data.getLast? = some '\n' :=
  trailing_newline_amended "DOMAIN,a.com\n" false false "DOMAIN,a.com\n"
    (by decide) (by decide)

theorem joinNL_cons_cons (s l : String) (ls : List String) :
    joinNL (s :: l :: ls) = s ++ "\n" ++ joinNL (l :: ls) := rfl

/-- C8: the conversion output begins with the payload: header line, and
each input line maps independently: a blank line to a blank line, the
comment "# My Rules" to "  # My Rules", and the rule line
DOMAIN,example.com to "  - DOMAIN,example.com". -/
theorem convert_spec :
    (∀ content, ∃ rest, convert_list_to_yaml content = "payload:\n" ++ rest) ∧
    (∀ lines, convertAux lines = lines.map convertLine) ∧
    (∀ line, pyStrip line = "" → convertLine line = "") ∧
    convertLine "# My Rules" = "  # My Rules" ∧
    convertLine "DOMAIN,example.com" = "  - DOMAIN,example.com" := by
  refine ⟨?_, ?_, ?_, by decide, by decide⟩
  · intro content
    unfold convert_list_to_yaml
    cases h : convertAux (splitLines content) with
    | nil =>
      refine ⟨"", ?_⟩
      decide
    | cons l ls =>
      refine ⟨joinNL (l :: ls) ++ "\n", ?_⟩
      rw [joinNL_cons_cons]
      rw [show ("payload:" ++ "\n" : String) = "payload:\n" from rfl]
      rw [String.append_assoc]
  · intro lines
    induction lines with
    | nil => rfl
    | cons l ls ih => simp [convertAux, ih]
  · intro line h
    simp only [convertLine]
    rw [if_pos h]

/-- Closed instances of convert_spec: a whitespace line maps to a blank
line, and a concrete conversion starts with the payload header. -/
theorem convert_spec_witness :
    convertLine "   " = "" ∧
    ∃ rest, convert_list_to_yaml "DOMAIN,example.com\n" = "payload:\n" ++ rest := by
  constructor
  · exact convert_spec.2.2.1 "   " (by decide)
  · exact convert_spec.1 "DOMAIN,example.com\n"

theorem ruleKey_ne_of_value_ne (r1 r2 : Rule) (ht : r1.type = r2.type)
    (hv : r1.value ≠ r2.value) : ruleKey r1 ≠ ruleKey r2 := by
  unfold ruleKey
  rw [ht]
  intro h
  apply hv
  have h2 := congrArg String.data h
  simp only [String.data_append] at h2
  exact String.ext (List.append_cancel_left h2)

/-- C9: dedup keys are case-insensitive in the type and case-sensitive in
the value: two typed lines of one group whose type tokens agree up to
ASCII case and whose trimmed values are byte-equal collapse to the first,
while equal-type lines with distinct values (for instance differing only
in letter case) are both retained. -/
theorem dedup_case_asymmetry :
    (∀ l1 l2 : String, typedLine l1 = true → typedLine l2 = true →
       pyUpper (typeToken l1) = pyUpper (typeToken l2) →
       valueToken l1 = valueToken l2 →
       deduplicate_rules [parse_rule l1, parse_rule l2] =
         ([parse_rule l1], [(ruleKey (parse_rule l1), 1)])) ∧
    (∀ l1 l2 : String, typedLine l1 = true → typedLine l2 = true →
       (parse_rule l1).type = (parse_rule l2).type →
       (parse_rule l1).value ≠ (parse_rule l2).value →
       deduplicate_rules [parse_rule l1, parse_rule l2] =
         ([parse_rule l1, parse_rule l2], [])) ∧
    (deduplicate_rules [parse_rule "DOMAIN,x.com\n", parse_rule "domain,x.com\n"]).1 =
      [parse_rule "DOMAIN,x.com\n"] ∧
    deduplicate_rules [parse_rule "DOMAIN,x.com\n", parse_rule "DOMAIN,X.com\n"] =
      ([parse_rule "DOMAIN,x.com\n", parse_rule "DOMAIN,X.com\n"], []) := by
  refine ⟨?_, ?_, by decide, by decide⟩
  · intro l1 l2 h1 h2 hT hV
    have hk : ruleKey (parse_rule l2) = ruleKey (parse_rule l1) := by
      rw [parse_rule_typed l1 h1, parse_rule_typed l2 h2]
      unfold ruleKey
      dsimp only
      rw [hT, hV]
    have hb1 : ((parse_rule l1).is_comment || (parse_rule l1).is_empty) = false := by
      rw [parse_rule_typed l1 h1]; rfl
    have hb2 : ((parse_rule l2).is_comment || (parse_rule l2).is_empty) = false := by
      rw [parse_rule_typed l2 h2]; rfl
    unfold deduplicate_rules
    rw [dedupAux_cons_new [] [] _ _ hb1 (by simp)]
    rw [dedupAux_cons_dup [ruleKey (parse_rule l1)] [] _ _ hb2
      (by rw [hk]; exact List.mem_singleton.mpr rfl)]
    rw [hk]
    rfl
  · intro l1 l2 h1 h2 hT hV
    have hk : ruleKey (parse_rule l1) ≠ ruleKey (parse_rule l2) :=
      ruleKey_ne_of_value_ne _ _ hT hV
    have hb1 : ((parse_rule l1).is_comment || (parse_rule l1).is_empty) = false := by
      rw [parse_rule_typed l1 h1]; rfl
    have hb2 : ((parse_rule l2).is_comment || (parse_rule l2).is_empty) = false := by
      rw [parse_rule_typed l2 h2]; rfl
    unfold deduplicate_rules
    rw [dedupAux_cons_new [] [] _ _ hb1 (by simp)]
    rw [dedupAux_cons_new [ruleKey (parse_rule l1)] [] _ _ hb2
      (by intro hm; exact hk (List.mem_singleton.mp hm).symm)]
    rfl

/-- Closed instances of dedup_case_asymmetry. -/
theorem dedup_case_asymmetry_witness :
    deduplicate_rules [parse_rule "DOMAIN,x.com\n", parse_rule "domain,x.com\n"] =
      ([parse_rule "DOMAIN,x.com\n"], [(ruleKey (parse_rule "DOMAIN,x.com\n"), 1)]) ∧
    deduplicate_rules [parse_rule "DOMAIN-SUFFIX,a.com\n", parse_rule "DOMAIN-SUFFIX,A.com\n"] =
      ([parse_rule "DOMAIN-SUFFIX,a.com\n", parse_rule "DOMAIN-SUFFIX,A.com\n"], []) := by
  constructor
  · exact dedup_case_asymmetry.1 "DOMAIN,x.com\n" "domain,x.com\n"
      (by decide) (by decide) (by decide) (by decide)
  · exact dedup_case_asymmetry.2.1 "DOMAIN-SUFFIX,a.com\n" "DOMAIN-SUFFIX,A.com\n"
      (by decide) (by decide) (by decide) (by decide)

/-- C10: a malformed line (non-empty, no comment marker, no comma)
participates in deduplication under the key UNKNOWN, followed by its
stripped content: its second occurrence within a group is dropped, and it
collides with the typed line UNKNOWN,v carrying the same stripped value,
whichever of the two comes second being removed. -/
theorem malformed_dedup :
    (∀ line, malformedLine line = true →
       (parse_rule line).type = "UNKNOWN" ∧
       (parse_rule line).value = pyStrip line ∧
       ruleKey (parse_rule line) = "UNKNOWN," ++ pyStrip line) ∧
    (∀ (line : String) rest seen c, malformedLine line = true →
       ("UNKNOWN," ++ pyStrip line) ∈ seen →
       dedupAux seen c (parse_rule line :: rest) =
         dedupAux seen (incrCount c ("UNKNOWN," ++ pyStrip line)) rest) ∧
    (∀ line, malformedLine line = true →
       deduplicate_rules [parse_rule line, parse_rule line] =
         ([parse_rule line], [("UNKNOWN," ++ pyStrip line, 1)])) ∧
    deduplicate_rules [parse_rule "justsometext\n", parse_rule "UNKNOWN,justsometext\n"] =
      ([parse_rule "justsometext\n"], [("UNKNOWN,justsometext", 1)]) ∧
    deduplicate_rules [parse_rule "UNKNOWN,justsometext\n", parse_rule "justsometext\n"] =
      ([parse_rule "UNKNOWN,justsometext\n"], [("UNKNOWN,justsometext", 1)]) := by
  have hkey : ∀ line, malformedLine line = true →
      ruleKey (parse_rule line) = "UNKNOWN," ++ pyStrip line := by
    intro line h
    rw [parse_rule_malformed line h]
    unfold ruleKey
    dsimp only
    rw [show ("UNKNOWN" ++ "," : String) = "UNKNOWN," from rfl]
  have hstep : ∀ (line : String) rest seen c, malformedLine line = true →
      ("UNKNOWN," ++ pyStrip line) ∈ seen →
      dedupAux seen c (parse_rule line :: rest) =
        dedupAux seen (incrCount c ("UNKNOWN," ++ pyStrip line)) rest := by
    intro line rest seen c h hm
    have hb : ((parse_rule line).is_comment || (parse_rule line).is_empty) = false := by
      rw [parse_rule_malformed line h]; rfl
    have hk := hkey line h
    rw [dedupAux_cons_dup seen c _ rest hb (by rw [hk]; exact hm)]
    rw [hk]
  have hpair : ∀ line, malformedLine line = true →
      deduplicate_rules [parse_rule line, parse_rule line] =
        ([parse_rule line], [("UNKNOWN," ++ pyStrip line, 1)]) := by
    intro line h
    have hb : ((parse_rule line).is_comment || (parse_rule line).is_empty) = false := by
      rw [parse_rule_malformed line h]; rfl
    have hk := hkey line h
    unfold deduplicate_rules
    rw [dedupAux_cons_new [] [] _ _ hb (by simp)]
    rw [hstep line [] [ruleKey (parse_rule line)] [] h
      (by rw [← hk]; exact List.mem_singleton.mpr rfl)]
    rfl
  refine ⟨fun line h => ⟨?_, ?_, hkey line h⟩, hstep, hpair, by decide, by decide⟩
  · rw [parse_rule_malformed line h]
  · rw [parse_rule_malformed line h]

/-- Closed instances of malformed_dedup at the line justsometext. -/
theorem malformed_dedup_witness :
    ruleKey (parse_rule "justsometext\n") = "UNKNOWN," ++ pyStrip "justsometext\n" ∧
    deduplicate_rules [parse_rule "justsometext\n", parse_rule "justsometext\n"] =
      ([parse_rule "justsometext\n"], [("UNKNOWN," ++ pyStrip "justsometext\n", 1)]) := by
  constructor
  · exact (malformed_dedup.1 "justsometext\n" (by decide)).2.2
  · exact malformed_dedup.2.2.1 "justsometext\n" (by decide)
